import Mathlib

set_option linter.unusedVariables false

/-!
Verification development for the hierarchical item store behind
`cpp/open3d/visualization/gui/TreeView.cpp`.

The C++ `TreeView::Impl` keeps a tree of heap-stable `Item` nodes
(`id`, `text`, `parent` pointer, `std::list<Item> children`), a hash map
`id2item_` from identifier to node pointer, a `selected_id_`, a callback
`on_value_changed_`, and a process-wide counter `g_next_id`.

Shallow embedding choices:
- An `Item` is a rose tree; the C++ `parent` back-pointer is implicit in the
  tree structure (it is recovered by `findWithParent`, which is what a map
  lookup followed by `->parent` observes, given that every pointer stored in
  `id2item_` points at the node in the tree carrying that key).
- `id2item_` is modelled by its key list: the pointer value associated to a
  live key is exactly the tree node carrying that identifier.
- The global counter `g_next_id` is threaded explicitly: state-changing
  operations take the current counter value and return the updated one.
- `Draw` is modelled with the ImGui environment abstracted into two boolean
  oracles: `openP id` (did `ImGui::TreeNodeEx` report the node open) and
  `clickP id` (did `ImGui::IsItemClicked` report the row clicked).  The
  outcome records the selection-highlight comparisons performed during the
  walk, the listener invocations performed after the walk, and the returned
  `DrawResult`.
-/

/-- `TreeView::ItemId` is an `int`; identifier arithmetic is modelled on `Int`
(the sentinel `-1` and the `< 0` test in `GetSelectedItemId` need signs). -/
abbrev ItemId := Int

/-- One `TreeView::Impl::Item` node (TreeView.cpp lines 47-52).  The `parent`
pointer of the C++ struct is implicit: a node's parent is the unique node of
the enclosing tree that lists it among its `children`. -/
inductive Item : Type where
  | mk (id : ItemId) (text : String) (children : List Item)

/-- Field accessor for `Item::id`. -/
def Item.id : Item → ItemId
  | .mk i _ _ => i

/-- Field accessor for `Item::text`. -/
def Item.text : Item → String
  | .mk _ t _ => t

/-- Field accessor for `Item::children`. -/
def Item.children : Item → List Item
  | .mk _ _ cs => cs

mutual
/-- All identifiers carried by a subtree, in depth-first pre-order.  Under the
store invariant these are exactly the keys of `id2item_` (see `TreeView.Inv`). -/
def Item.subtreeIds : Item → List ItemId
  | .mk i _ cs => i :: subtreeIdsList cs

/-- List version of `Item.subtreeIds`. -/
def subtreeIdsList : List Item → List ItemId
  | [] => []
  | c :: cs => c.subtreeIds ++ subtreeIdsList cs
end

mutual
/-- All nodes of a subtree (the subtree's root included), pre-order. -/
def Item.allNodes : Item → List Item
  | .mk i t cs => .mk i t cs :: allNodesList cs

/-- List version of `Item.allNodes`. -/
def allNodesList : List Item → List Item
  | [] => []
  | c :: cs => c.allNodes ++ allNodesList cs
end

/-- The widget state of `TreeView::Impl` (TreeView.cpp lines 41-57):
`root_` is the root node, `id2item_` the key list of the lookup map,
`selected_id_` the committed selection (initially `-1`), and
`on_value_changed_` records whether a listener has been registered (the
listener body itself is external; `Draw` reports the arguments it would be
invoked with). -/
structure TreeView : Type where
  root_ : Item
  id2item_ : List ItemId
  selected_id_ : ItemId
  on_value_changed_ : Bool

/-- The constructor `TreeView::TreeView` (TreeView.cpp lines 61-64): the root
gets `g_next_id++` as identifier and is registered in `id2item_`; the default
member values are `selected_id_ = -1` and no listener.  Returns the new widget
together with the updated global counter. -/
def TreeView.create (g : ItemId) : TreeView × ItemId :=
  (⟨Item.mk g "" [], [g], -1, false⟩, g + 1)

/-- `TreeView::GetRootItem` (TreeView.cpp lines 68-70). -/
def TreeView.GetRootItem (tv : TreeView) : ItemId :=
  tv.root_.id

mutual
/-- Attach `c` as the last child of the node of `t` whose identifier is `p`
(the node a successful `id2item_.find(p)` resolves to; membership in
`Item.subtreeIds` guides the descent so that exactly one node is modified). -/
def Item.insertUnder (t : Item) (p : ItemId) (c : Item) : Item :=
  match t with
  | .mk i tx cs =>
    if i = p then .mk i tx (cs ++ [c]) else .mk i tx (insertUnderList cs p c)

/-- List version of `Item.insertUnder`: descends into the first subtree that
contains `p`. -/
def insertUnderList (l : List Item) (p : ItemId) (c : Item) : List Item :=
  match l with
  | [] => []
  | t :: ts =>
    if p ∈ t.subtreeIds then t.insertUnder p c :: ts else t :: insertUnderList ts p c
end

/-- `TreeView::AddItem` (TreeView.cpp lines 72-91): allocate `g_next_id++` as
the identifier, store `text ++ "##" ++ id` as the node text, resolve
`parent_id` through `id2item_` falling back to the root, append the new node
to the resolved parent's children, and register the new key.  Returns
`(new item id, updated counter, updated widget)`. -/
def TreeView.AddItem (tv : TreeView) (g : ItemId) (parent_id : ItemId) (text : String) :
    ItemId × ItemId × TreeView :=
  let item_id := g
  let item_text := text ++ "##" ++ toString item_id
  let item := Item.mk item_id item_text []
  let pid := if parent_id ∈ tv.id2item_ then parent_id else tv.root_.id
  (item_id, g + 1,
    { tv with root_ := tv.root_.insertUnder pid item,
              id2item_ := tv.id2item_ ++ [item_id] })

mutual
/-- Resolve the node with identifier `x` inside `t`, also returning its parent
node (`none` when the match is `t` itself, whose parent is `par`).  This is
what dereferencing `id2item_.find(x)->second` and reading `->parent` observes:
each key of `id2item_` is mapped to the node of the tree carrying it. -/
def findWithParent (par : Option Item) (t : Item) (x : ItemId) : Option (Item × Option Item) :=
  match t with
  | .mk i tx cs =>
    if i = x then some (Item.mk i tx cs, par) else findWithParentList (Item.mk i tx cs) cs x

/-- List version of `findWithParent`: searches the children `l` of `par`. -/
def findWithParentList (par : Item) (l : List Item) (x : ItemId) : Option (Item × Option Item) :=
  match l with
  | [] => none
  | c :: cs =>
    match findWithParent (some par) c x with
    | some r => some r
    | none => findWithParentList par cs x
end

/-- `TreeView::GetItemChildren` (TreeView.cpp lines 124-137): resolve
`parent_id`; if it resolves and the resolved item's *parent* pointer is
non-null, return the identifiers of that parent's children (note: the parent's
children, i.e. the siblings of the resolved item), else the empty vector. -/
def TreeView.GetItemChildren (tv : TreeView) (parent_id : ItemId) : List ItemId :=
  if parent_id ∈ tv.id2item_ then
    match findWithParent none tv.root_ parent_id with
    | some (_, some parent) => parent.children.map Item.id
    | _ => []
  else []

mutual
/-- The effect of `TreeView::RemoveItem` on the key list of `id2item_`:
the node's own key is erased first (TreeView.cpp line 99), then each child, in
order, recursively erases its subtree (lines 107-109). -/
def eraseSubtreeEntries (t : Item) (table : List ItemId) : List ItemId :=
  match t with
  | .mk i _ cs => eraseSubtreeEntriesList cs (table.erase i)

/-- List version of `eraseSubtreeEntries`. -/
def eraseSubtreeEntriesList (l : List Item) (table : List ItemId) : List ItemId :=
  match l with
  | [] => table
  | c :: cs => eraseSubtreeEntriesList cs (eraseSubtreeEntries c table)
end

mutual
/-- The effect of `TreeView::RemoveItem` on the tree for a non-root target:
the unique child subtree rooted at identifier `x` is unlinked from its
parent's children list (TreeView.cpp lines 112-120; the `break` after the
first identifier match is mirrored by stopping at the first hit). -/
def Item.removeSub (t : Item) (x : ItemId) : Item :=
  match t with
  | .mk i tx cs => .mk i tx (removeSubList cs x)

/-- List version of `Item.removeSub`. -/
def removeSubList (l : List Item) (x : ItemId) : List Item :=
  match l with
  | [] => []
  | c :: cs => if c.id = x then cs else c.removeSub x :: removeSubList cs x
end

/-- `TreeView::RemoveItem` (TreeView.cpp lines 93-122).  When `item_id` is a
live key: all keys of the target's subtree leave `id2item_` (own key first,
then children front-to-back, each recursively); then, *only if the target has
a parent* (`if (item->parent)`), the target is unlinked from that parent's
children.  A root target therefore keeps the root node in the tree but loses
its children and its own lookup entry.  A dead `item_id` is a no-op. -/
def TreeView.RemoveItem (tv : TreeView) (item_id : ItemId) : TreeView :=
  if item_id ∈ tv.id2item_ then
    match findWithParent none tv.root_ item_id with
    | some (item, parent) =>
      let table := eraseSubtreeEntries item tv.id2item_
      match parent with
      | some _ => { tv with id2item_ := table, root_ := tv.root_.removeSub item_id }
      | none => { tv with id2item_ := table, root_ := Item.mk tv.root_.id tv.root_.text [] }
    | none => tv
  else tv

/-- `TreeView::GetSelectedItemId` (TreeView.cpp lines 139-145): a negative
`selected_id_` reads as the root's identifier. -/
def TreeView.GetSelectedItemId (tv : TreeView) : ItemId :=
  if tv.selected_id_ < 0 then tv.root_.id else tv.selected_id_

/-- `TreeView::SetSelectedItemId` (TreeView.cpp lines 147-149): stored
unconditionally, no validation. -/
def TreeView.SetSelectedItemId (tv : TreeView) (item_id : ItemId) : TreeView :=
  { tv with selected_id_ := item_id }

/-- `TreeView::SetOnValueChanged` (TreeView.cpp lines 151-153): registers the
listener (modelled as the flag consulted by `Draw` before invoking it). -/
def TreeView.SetOnValueChanged (tv : TreeView) : TreeView :=
  { tv with on_value_changed_ := true }

/-- `Widget::DrawResult` as used by `TreeView::Draw` (`NONE` or `REDRAW`). -/
inductive DrawResult : Type where
  | NONE
  | REDRAW
deriving DecidableEq

/-- The mutable state threaded through the recursive `DrawItem` lambda of
`TreeView::Draw`: the widget's `selected_id_` (assigned at click time, line
214/223), the captured `new_selection` pointer (modelled by the pointee's
`(text, id)`), and the log of selection-highlight comparisons
`item.id == selected_id_` made at line 199, in visit order. -/
structure DrawState : Type where
  selected_id : ItemId
  new_selection : Option (String × ItemId)
  highlights : List (ItemId × Bool)

mutual
/-- The recursive `DrawItem` lambda (TreeView.cpp lines 195-227): log the
highlight comparison against the *current* `selected_id_`; then, whether the
node is drawn open or closed, a click on a childless node immediately assigns
`selected_id_` and records `new_selection`; children are visited only when
the node is open. -/
def DrawItem (openP clickP : ItemId → Bool) (item : Item) (st : DrawState) : DrawState :=
  match item with
  | .mk i tx cs =>
    let st1 : DrawState := { st with highlights := st.highlights ++ [(i, i == st.selected_id)] }
    if openP i then
      let st2 : DrawState :=
        if clickP i && cs.isEmpty then
          { st1 with selected_id := i, new_selection := some (tx, i) }
        else st1
      DrawItemList openP clickP cs st2
    else
      if clickP i && cs.isEmpty then
        { st1 with selected_id := i, new_selection := some (tx, i) }
      else st1

/-- Sequential visit of a children list (the `for (auto &child : ...)` loops
of TreeView.cpp lines 217-219 and 228-234). -/
def DrawItemList (openP clickP : ItemId → Bool) (l : List Item) (st : DrawState) : DrawState :=
  match l with
  | [] => st
  | c :: cs => DrawItemList openP clickP cs (DrawItem openP clickP c st)
end

/-- Everything `TreeView::Draw` produces: the updated widget, the listener
invocations (performed after the walk, lines 245-251; empty unless a listener
is registered), the highlight-comparison log, and the returned `DrawResult`. -/
structure DrawOutcome : Type where
  tv : TreeView
  calls : List (String × ItemId)
  highlights : List (ItemId × Bool)
  result : DrawResult

/-- `TreeView::Draw` (TreeView.cpp lines 159-254), with the pure-rendering
calls (rectangles, cursor positioning, style colors) elided: walk the root's
children with `DrawItem`, then, if a `new_selection` was recorded, invoke the
registered listener once with the selected node's `(text, id)` and return
`REDRAW`; otherwise return `NONE`. -/
def TreeView.Draw (tv : TreeView) (openP clickP : ItemId → Bool) : DrawOutcome :=
  let st := DrawItemList openP clickP tv.root_.children
    { selected_id := tv.selected_id_, new_selection := none, highlights := [] }
  let tv2 := { tv with selected_id_ := st.selected_id }
  match st.new_selection with
  | some (tx, i) =>
    { tv := tv2, calls := if tv.on_value_changed_ then [(tx, i)] else [],
      highlights := st.highlights, result := .REDRAW }
  | none =>
    { tv := tv2, calls := [], highlights := st.highlights, result := .NONE }

mutual
/-- Whether the walk over `t` (under the given open/click oracles) reaches a
childless node that is clicked — i.e. whether the pass activates a leaf. -/
def clickedLeaf (openP clickP : ItemId → Bool) (t : Item) : Bool :=
  match t with
  | .mk i _ cs =>
    (clickP i && cs.isEmpty) || (openP i && clickedLeafList openP clickP cs)

/-- List version of `clickedLeaf`. -/
def clickedLeafList (openP clickP : ItemId → Bool) (l : List Item) : Bool :=
  match l with
  | [] => false
  | c :: cs => clickedLeaf openP clickP c || clickedLeafList openP clickP cs
end

/-- One public mutating call on a single store (used to quantify over
"every sequence of public Insert/Remove operations"). -/
inductive TreeOp : Type where
  | add (parent_id : ItemId) (text : String)
  | remove (item_id : ItemId)
  | setSelected (item_id : ItemId)
deriving DecidableEq

/-- Apply one `TreeOp`, threading the global counter. -/
def TreeView.step (tv : TreeView) (g : ItemId) : TreeOp → ItemId × TreeView
  | .add p t => let r := tv.AddItem g p t; (r.2.1, r.2.2)
  | .remove i => (g, tv.RemoveItem i)
  | .setSelected i => (g, tv.SetSelectedItemId i)

/-- Apply a sequence of `TreeOp`s, threading the global counter. -/
def TreeView.runOps (tv : TreeView) (g : ItemId) : List TreeOp → ItemId × TreeView
  | [] => (g, tv)
  | op :: ops => let r := tv.step g op; r.2.runOps r.1 ops

/-- The well-formedness invariant of a reachable store relative to the global
counter `g`: the keys of `id2item_` are, up to order, exactly the identifiers
in the tree; identifiers in the tree are pairwise distinct; and all of them
were allocated below the current counter. -/
def TreeView.Inv (tv : TreeView) (g : ItemId) : Prop :=
  tv.id2item_.Perm tv.root_.subtreeIds ∧ tv.root_.subtreeIds.Nodup ∧
    ∀ i ∈ tv.root_.subtreeIds, i < g

instance (tv : TreeView) (g : ItemId) : Decidable (tv.Inv g) :=
  inferInstanceAs (Decidable (tv.id2item_.Perm tv.root_.subtreeIds ∧
    tv.root_.subtreeIds.Nodup ∧ ∀ i ∈ tv.root_.subtreeIds, i < g))

/-- The process-wide picture for identifier-uniqueness claims: the shared
counter `TreeView::Impl::g_next_id` plus every store constructed so far. -/
structure World : Type where
  g_next_id : ItemId
  stores : List TreeView

/-- One public identifier-issuing or removing call somewhere in the process:
constructing a store, or an `AddItem`/`RemoveItem` on the store at a given
index (out-of-range indices do nothing). -/
inductive WorldOp : Type where
  | construct
  | add (store : Nat) (parent_id : ItemId) (text : String)
  | remove (store : Nat) (item_id : ItemId)

/-- Apply one `WorldOp`; also report the identifiers issued by the call
(a constructed root's identifier, or the identifier returned by `AddItem`). -/
def World.step (w : World) : WorldOp → World × List ItemId
  | .construct =>
    let r := TreeView.create w.g_next_id
    (⟨r.2, w.stores ++ [r.1]⟩, [r.1.root_.id])
  | .add idx p t =>
    match w.stores[idx]? with
    | some tv =>
      let r := tv.AddItem w.g_next_id p t
      (⟨r.2.1, w.stores.set idx r.2.2⟩, [r.1])
    | none => (w, [])
  | .remove idx i =>
    match w.stores[idx]? with
    | some tv => (⟨w.g_next_id, w.stores.set idx (tv.RemoveItem i)⟩, [])
    | none => (w, [])

/-- Apply a sequence of `WorldOp`s, concatenating the issued identifiers. -/
def World.runOps (w : World) : List WorldOp → World × List ItemId
  | [] => (w, [])
  | op :: ops =>
    let r := w.step op
    let r2 := r.1.runOps ops
    (r2.1, r.2 ++ r2.2)

mutual
/-- Reference reading of claim C2, written from the spec's words: the ordered
identifiers of the children of the node whose *child* carries identifier `x`
("the siblings of the item, including the item itself"), or `[]` when no node
of `t` has a child with identifier `x`. -/
def specSiblingsIncludingSelf (t : Item) (x : ItemId) : List ItemId :=
  match t with
  | .mk _ _ cs =>
    if x ∈ cs.map Item.id then cs.map Item.id else specSiblingsIncludingSelfList cs x

/-- List version of `specSiblingsIncludingSelf`: searches for the subtree in
which `x` has its parent. -/
def specSiblingsIncludingSelfList (l : List Item) (x : ItemId) : List ItemId :=
  match l with
  | [] => []
  | c :: cs =>
    if x ∈ c.subtreeIds ∧ x ≠ c.id then specSiblingsIncludingSelf c x
    else specSiblingsIncludingSelfList cs x
end

/-! Basic lemmas about the tree embedding. -/

theorem Item.mutual_ind (P : Item → Prop) (Q : List Item → Prop)
    (h1 : ∀ i t cs, Q cs → P (Item.mk i t cs))
    (h2 : Q [])
    (h3 : ∀ c cs, P c → Q cs → Q (c :: cs)) :
    (∀ t, P t) ∧ (∀ l, Q l) := by
  have key : ∀ n : Nat, (∀ t : Item, sizeOf t ≤ n → P t) ∧
      (∀ l : List Item, sizeOf l ≤ n → Q l) := by
    intro n
    induction n with
    | zero =>
      constructor
      · intro t ht; cases t with
        | mk i s cs => simp only [Item.mk.sizeOf_spec] at ht; omega
      · intro l hl; cases l with
        | nil => exact h2
        | cons c cs => simp only [List.cons.sizeOf_spec] at hl; omega
    | succ n ih =>
      constructor
      · intro t ht
        cases t with
        | mk i s cs =>
          apply h1
          apply ih.2
          simp only [Item.mk.sizeOf_spec] at ht
          omega
      · intro l hl
        cases l with
        | nil => exact h2
        | cons c cs =>
          simp only [List.cons.sizeOf_spec] at hl
          exact h3 c cs (ih.1 c (by omega)) (ih.2 cs (by omega))
  constructor
  · intro t; exact (key (sizeOf t)).1 t le_rfl
  · intro l; exact (key (sizeOf l)).2 l le_rfl

@[simp] theorem Item.id_mk (i : ItemId) (tx : String) (cs : List Item) :
    (Item.mk i tx cs).id = i := rfl

@[simp] theorem Item.text_mk (i : ItemId) (tx : String) (cs : List Item) :
    (Item.mk i tx cs).text = tx := rfl

@[simp] theorem Item.children_mk (i : ItemId) (tx : String) (cs : List Item) :
    (Item.mk i tx cs).children = cs := rfl

@[simp] theorem Item.subtreeIds_mk (i : ItemId) (tx : String) (cs : List Item) :
    (Item.mk i tx cs).subtreeIds = i :: subtreeIdsList cs := by
  rw [Item.subtreeIds]

@[simp] theorem subtreeIdsList_nil : subtreeIdsList [] = [] := by
  rw [subtreeIdsList]

@[simp] theorem subtreeIdsList_cons (c : Item) (cs : List Item) :
    subtreeIdsList (c :: cs) = c.subtreeIds ++ subtreeIdsList cs := by
  rw [subtreeIdsList]

@[simp] theorem Item.allNodes_mk (i : ItemId) (tx : String) (cs : List Item) :
    (Item.mk i tx cs).allNodes = Item.mk i tx cs :: allNodesList cs := by
  rw [Item.allNodes]

@[simp] theorem allNodesList_nil : allNodesList [] = [] := by
  rw [allNodesList]

@[simp] theorem allNodesList_cons (c : Item) (cs : List Item) :
    allNodesList (c :: cs) = c.allNodes ++ allNodesList cs := by
  rw [allNodesList]

theorem subtreeIdsList_append (l1 l2 : List Item) :
    subtreeIdsList (l1 ++ l2) = subtreeIdsList l1 ++ subtreeIdsList l2 := by
  induction l1 with
  | nil => simp
  | cons c cs ih => simp [ih]

theorem Item.id_mem_subtreeIds (t : Item) : t.id ∈ t.subtreeIds := by
  cases t; simp

theorem Item.self_mem_allNodes (t : Item) : t ∈ t.allNodes := by
  cases t; simp

theorem mem_subtreeIdsList_of_mem {l : List Item} {c : Item} (hc : c ∈ l) :
    ∀ x ∈ c.subtreeIds, x ∈ subtreeIdsList l := by
  induction l with
  | nil => cases hc
  | cons d ds ih =>
    intro x hx
    rcases List.mem_cons.mp hc with h | h
    · subst h; simp [hx]
    · simp [ih h x hx]

theorem findWithParent_not_mem_pair (x : ItemId) :
    (∀ t : Item, ∀ par : Option Item, x ∉ t.subtreeIds → findWithParent par t x = none) ∧
    (∀ l : List Item, ∀ par : Item, x ∉ subtreeIdsList l → findWithParentList par l x = none) := by
  apply Item.mutual_ind
  · intro i tx cs ih par hx
    simp only [Item.subtreeIds_mk, List.mem_cons, not_or] at hx
    rw [findWithParent]
    simp only [if_neg (Ne.symm hx.1)]
    exact ih _ hx.2
  · intro par hx
    rw [findWithParentList]
  · intro c cs ihc ihcs par hx
    simp only [subtreeIdsList_cons, List.mem_append, not_or] at hx
    rw [findWithParentList, ihc _ hx.1]
    exact ihcs _ hx.2

theorem findWithParent_self (t : Item) (par : Option Item) :
    findWithParent par t t.id = some (t, par) := by
  cases t with
  | mk i tx cs => rw [findWithParent]; simp

theorem removeSub_noop_pair (x : ItemId) :
    (∀ t : Item, x ∉ t.subtreeIds → t.removeSub x = t) ∧
    (∀ l : List Item, x ∉ subtreeIdsList l → removeSubList l x = l) := by
  apply Item.mutual_ind
  · intro i tx cs ih hx
    simp only [Item.subtreeIds_mk, List.mem_cons, not_or] at hx
    rw [Item.removeSub, ih hx.2]
  · intro hx
    rw [removeSubList]
  · intro c cs ihc ihcs hx
    simp only [subtreeIdsList_cons, List.mem_append, not_or] at hx
    have hcid : c.id ≠ x := fun h => hx.1 (h ▸ c.id_mem_subtreeIds)
    rw [removeSubList, if_neg hcid, ihc hx.1, ihcs hx.2]

theorem insertUnder_perm_pair (p : ItemId) (c : Item) :
    (∀ t : Item, p ∈ t.subtreeIds →
      (t.insertUnder p c).subtreeIds.Perm (c.subtreeIds ++ t.subtreeIds)) ∧
    (∀ l : List Item, p ∈ subtreeIdsList l →
      (subtreeIdsList (insertUnderList l p c)).Perm (c.subtreeIds ++ subtreeIdsList l)) := by
  apply Item.mutual_ind
  · intro i tx cs ih hp
    rw [Item.insertUnder]
    by_cases h : i = p
    · simp only [if_pos h, Item.subtreeIds_mk, subtreeIdsList_append, subtreeIdsList_cons,
        subtreeIdsList_nil, List.append_nil]
      exact (List.perm_append_comm.cons i).trans List.perm_middle.symm
    · simp only [if_neg h, Item.subtreeIds_mk]
      simp only [Item.subtreeIds_mk, List.mem_cons] at hp
      rcases hp with hp | hp
      · exact absurd hp.symm h
      · exact ((ih hp).cons i).trans List.perm_middle.symm
  · intro hp
    simp at hp
  · intro t ts iht ihts hp
    rw [insertUnderList]
    by_cases h : p ∈ t.subtreeIds
    · simp only [if_pos h, subtreeIdsList_cons]
      rw [← List.append_assoc]
      exact (iht h).append_right _
    · simp only [subtreeIdsList_cons, List.mem_append] at hp
      rcases hp with hp | hp
      · exact absurd hp h
      · simp only [if_neg h, subtreeIdsList_cons]
        refine ((ihts hp).append_left t.subtreeIds).trans ?_
        rw [← List.append_assoc, ← List.append_assoc]
        exact List.perm_append_comm.append_right _

theorem insertUnder_id (t : Item) (p : ItemId) (c : Item) :
    (t.insertUnder p c).id = t.id := by
  cases t with
  | mk i tx cs =>
    rw [Item.insertUnder]
    by_cases h : i = p <;> simp [h]

theorem removeSub_id (t : Item) (x : ItemId) : (t.removeSub x).id = t.id := by
  cases t with
  | mk i tx cs => rw [Item.removeSub]; simp

theorem eraseSubtreeEntries_foldl_pair :
    (∀ t : Item, ∀ table : List ItemId,
      eraseSubtreeEntries t table = List.foldl List.erase table t.subtreeIds) ∧
    (∀ l : List Item, ∀ table : List ItemId,
      eraseSubtreeEntriesList l table = List.foldl List.erase table (subtreeIdsList l)) := by
  apply Item.mutual_ind
  · intro i tx cs ih table
    rw [eraseSubtreeEntries, ih]
    simp
  · intro table
    rw [eraseSubtreeEntriesList]
    simp
  · intro c cs ihc ihcs table
    rw [eraseSubtreeEntriesList, ihc, ihcs]
    simp [List.foldl_append]

theorem foldl_erase_perm (xs : List ItemId) :
    ∀ table rest : List ItemId, table.Nodup → table.Perm (xs ++ rest) →
      (List.foldl List.erase table xs).Perm rest := by
  induction xs with
  | nil => intro table rest hnd hperm; simpa using hperm
  | cons x xs ih =>
    intro table rest hnd hperm
    rw [List.foldl_cons]
    apply ih _ _ (hnd.erase x)
    have h1 : (table.erase x).Perm ((x :: (xs ++ rest)).erase x) := hperm.erase x
    simpa using h1

theorem findRemove_pair (x : ItemId) :
    (∀ t : Item, ∀ par : Option Item, t.subtreeIds.Nodup → x ∈ t.subtreeIds → x ≠ t.id →
      ∃ n p, findWithParent par t x = some (n, some p) ∧ n.id = x ∧ n ∈ p.children ∧
        p.children.map Item.id = specSiblingsIncludingSelf t x ∧
        t.subtreeIds.Perm (n.subtreeIds ++ (t.removeSub x).subtreeIds)) ∧
    (∀ l : List Item, ∀ par : Item, (subtreeIdsList l).Nodup → x ∈ subtreeIdsList l →
      ∃ n p, findWithParentList par l x = some (n, some p) ∧ n.id = x ∧
        ((x ∈ l.map Item.id ∧ p = par ∧ n ∈ l) ∨
         (x ∉ l.map Item.id ∧ n ∈ p.children ∧
           p.children.map Item.id = specSiblingsIncludingSelfList l x)) ∧
        (subtreeIdsList l).Perm (n.subtreeIds ++ subtreeIdsList (removeSubList l x))) := by
  apply Item.mutual_ind
  · intro i tx cs ih par hnd hx hne
    simp only [Item.subtreeIds_mk] at hnd hx
    simp only [Item.id_mk] at hne
    have hxcs : x ∈ subtreeIdsList cs := by
      rcases List.mem_cons.mp hx with h | h
      · exact absurd h hne
      · exact h
    obtain ⟨n, p, hfind, hid, hdisj, hperm⟩ := ih (Item.mk i tx cs) hnd.of_cons hxcs
    refine ⟨n, p, ?_, hid, ?_, ?_, ?_⟩
    · rw [findWithParent, if_neg (Ne.symm hne)]
      exact hfind
    · rcases hdisj with ⟨hxl, hp, hnl⟩ | ⟨hxr, hm, hs⟩
      · rw [hp]; simpa using hnl
      · exact hm
    · rw [specSiblingsIncludingSelf]
      rcases hdisj with ⟨hxl, hp, hnl⟩ | ⟨hxr, hm, hs⟩
      · rw [if_pos hxl, hp]; simp
      · rw [if_neg hxr]; exact hs
    · rw [Item.removeSub]
      simp only [Item.subtreeIds_mk]
      exact (hperm.cons i).trans List.perm_middle.symm
  · intro par hnd hx
    simp at hx
  · intro c cs ihc ihcs par hnd hx
    simp only [subtreeIdsList_cons] at hnd hx ⊢
    by_cases hceq : c.id = x
    · refine ⟨c, par, ?_, hceq, ?_, ?_⟩
      · have h1 : findWithParent (some par) c x = some (c, some par) := by
          rw [← hceq]; exact findWithParent_self c (some par)
        rw [findWithParentList, h1]
      · exact Or.inl ⟨List.mem_map.mpr ⟨c, List.mem_cons_self c cs, hceq⟩, rfl,
          List.mem_cons_self c cs⟩
      · rw [removeSubList, if_pos hceq]
    · by_cases hxc : x ∈ c.subtreeIds
      · have hndc : c.subtreeIds.Nodup := (List.nodup_append.mp hnd).1
        have hd : c.subtreeIds.Disjoint (subtreeIdsList cs) := (List.nodup_append.mp hnd).2.2
        obtain ⟨n, p, hfind, hid, hmem, hsib, hperm⟩ :=
          ihc (some par) hndc hxc (Ne.symm hceq)
        refine ⟨n, p, ?_, hid, ?_, ?_⟩
        · rw [findWithParentList, hfind]
        · refine Or.inr ⟨?_, hmem, ?_⟩
          · intro h
            obtain ⟨d, hdm, hdi⟩ := List.mem_map.mp h
            rcases List.mem_cons.mp hdm with h1 | h1
            · exact hceq (h1 ▸ hdi)
            · exact hd hxc (mem_subtreeIdsList_of_mem h1 x (hdi ▸ d.id_mem_subtreeIds))
          · rw [specSiblingsIncludingSelfList, if_pos ⟨hxc, Ne.symm hceq⟩]
            exact hsib
        · have hnoop : removeSubList cs x = cs :=
            (removeSub_noop_pair x).2 cs (fun h => hd hxc h)
          rw [removeSubList, if_neg hceq, hnoop, subtreeIdsList_cons, ← List.append_assoc]
          exact hperm.append_right _
      · have hxcs : x ∈ subtreeIdsList cs := by
          rcases List.mem_append.mp hx with h | h
          · exact absurd h hxc
          · exact h
        have hnd2 : (subtreeIdsList cs).Nodup := (List.nodup_append.mp hnd).2.1
        obtain ⟨n, p, hfind, hid, hdisj, hperm⟩ := ihcs par hnd2 hxcs
        refine ⟨n, p, ?_, hid, ?_, ?_⟩
        · rw [findWithParentList, (findWithParent_not_mem_pair x).1 c (some par) hxc]
          exact hfind
        · rcases hdisj with ⟨hxl, hp, hnl⟩ | ⟨hxr, hm, hs⟩
          · exact Or.inl ⟨by simp only [List.map_cons, List.mem_cons]; right; exact hxl,
              hp, List.mem_cons_of_mem c hnl⟩
          · refine Or.inr ⟨?_, hm, ?_⟩
            · intro h
              simp only [List.map_cons, List.mem_cons] at h
              rcases h with h1 | h1
              · exact hxc (by rw [h1]; exact c.id_mem_subtreeIds)
              · exact hxr h1
            · rw [specSiblingsIncludingSelfList, if_neg (fun h => hxc h.1)]
              exact hs
        · have hcne : c.id ≠ x := fun h => hxc (h ▸ c.id_mem_subtreeIds)
          rw [removeSubList, if_neg hcne, subtreeIdsList_cons,
            (removeSub_noop_pair x).1 c hxc]
          refine (hperm.append_left c.subtreeIds).trans ?_
          rw [← List.append_assoc, ← List.append_assoc]
          exact List.perm_append_comm.append_right _

theorem allNodesList_append (l1 l2 : List Item) :
    allNodesList (l1 ++ l2) = allNodesList l1 ++ allNodesList l2 := by
  induction l1 with
  | nil => simp
  | cons c cs ih => simp [ih]

theorem insertUnder_mem_pair (p : ItemId) (c : Item) :
    (∀ t : Item, p ∈ t.subtreeIds → c ∈ (t.insertUnder p c).allNodes) ∧
    (∀ l : List Item, p ∈ subtreeIdsList l → c ∈ allNodesList (insertUnderList l p c)) := by
  apply Item.mutual_ind
  · intro i tx cs ih hp
    rw [Item.insertUnder]
    by_cases h : i = p
    · rw [if_pos h]
      simp only [Item.allNodes_mk, allNodesList_append, List.mem_cons, List.mem_append]
      right; right
      simpa using c.self_mem_allNodes
    · rw [if_neg h]
      simp only [Item.subtreeIds_mk, List.mem_cons] at hp
      rcases hp with hp | hp
      · exact absurd hp.symm h
      · simp only [Item.allNodes_mk, List.mem_cons]
        exact Or.inr (ih hp)
  · intro hp
    simp at hp
  · intro t ts iht ihts hp
    rw [insertUnderList]
    by_cases h : p ∈ t.subtreeIds
    · rw [if_pos h]
      simp only [allNodesList_cons, List.mem_append]
      exact Or.inl (iht h)
    · simp only [subtreeIdsList_cons, List.mem_append] at hp
      rcases hp with hp | hp
      · exact absurd hp h
      · rw [if_neg h]
        simp only [allNodesList_cons, List.mem_append]
        exact Or.inr (ihts hp)

theorem mem_allNodes_of_mem_children {t : Item} {n : Item}
    (h : n ∈ allNodesList t.children) : n ∈ t.allNodes := by
  cases t with
  | mk i tx cs => simp only [Item.children_mk] at h; simp [h]

/-- Unfolded form of `TreeView.AddItem` (the `let`s of the definition reduced). -/
theorem TreeView.AddItem_eq (tv : TreeView) (g parent_id : ItemId) (text : String) :
    tv.AddItem g parent_id text =
      (g, g + 1,
        { tv with
          root_ := (tv.root_.insertUnder
            (if parent_id ∈ tv.id2item_ then parent_id else tv.root_.id)
            (Item.mk g (text ++ "##" ++ toString g) []))
          id2item_ := tv.id2item_ ++ [g] }) := rfl

theorem TreeView.AddItem_inv {tv : TreeView} {g : ItemId} (hInv : tv.Inv g)
    (parent_id : ItemId) (text : String) :
    (tv.AddItem g parent_id text).2.2.Inv (g + 1) ∧
    (tv.AddItem g parent_id text).2.2.root_.id = tv.root_.id := by
  obtain ⟨hperm, hnd, hb⟩ := hInv
  have hgid : g ∉ tv.root_.subtreeIds := fun h => absurd (hb g h) (lt_irrefl g)
  have hpid : (if parent_id ∈ tv.id2item_ then parent_id else tv.root_.id)
      ∈ tv.root_.subtreeIds := by
    by_cases h : parent_id ∈ tv.id2item_
    · rw [if_pos h]; exact hperm.mem_iff.mp h
    · rw [if_neg h]; exact tv.root_.id_mem_subtreeIds
  have hins := (insertUnder_perm_pair
      (if parent_id ∈ tv.id2item_ then parent_id else tv.root_.id)
      (Item.mk g (text ++ "##" ++ toString g) [])).1 tv.root_ hpid
  simp only [Item.subtreeIds_mk, subtreeIdsList_nil] at hins
  rw [TreeView.AddItem_eq]
  refine ⟨⟨?_, ?_, ?_⟩, insertUnder_id _ _ _⟩
  · refine ((hperm.append_right [g]).trans ?_).trans hins.symm
    exact List.perm_append_comm
  · refine hins.nodup_iff.mpr ?_
    exact List.Nodup.cons hgid hnd
  · intro i hi
    rcases List.mem_cons.mp (hins.mem_iff.mp hi) with h | h
    · rw [h]; exact lt_add_one g
    · exact (hb i h).trans (lt_add_one g)

theorem TreeView.RemoveItem_noop {tv : TreeView} {x : ItemId} (hx : x ∉ tv.id2item_) :
    tv.RemoveItem x = tv := by
  rw [TreeView.RemoveItem, if_neg hx]

theorem TreeView.RemoveItem_spec {tv : TreeView} {g x : ItemId} (hInv : tv.Inv g)
    (hx : x ∈ tv.id2item_) (hne : x ≠ tv.root_.id) :
    ∃ n p, findWithParent none tv.root_ x = some (n, some p) ∧ n.id = x ∧
      tv.RemoveItem x =
        { tv with
          id2item_ := eraseSubtreeEntries n tv.id2item_
          root_ := tv.root_.removeSub x } ∧
      (tv.RemoveItem x).id2item_.Perm (tv.root_.removeSub x).subtreeIds ∧
      (tv.RemoveItem x).Inv g ∧
      (tv.RemoveItem x).id2item_.length + n.subtreeIds.length = tv.id2item_.length ∧
      x ∉ (tv.RemoveItem x).root_.subtreeIds := by
  obtain ⟨hperm, hnd, hb⟩ := hInv
  obtain ⟨n, p, hfind, hid, hmem, hsib, hperm2⟩ :=
    (findRemove_pair x).1 tv.root_ none hnd (hperm.mem_iff.mp hx) hne
  have heq : tv.RemoveItem x =
      { tv with
        id2item_ := eraseSubtreeEntries n tv.id2item_
        root_ := tv.root_.removeSub x } := by
    rw [TreeView.RemoveItem, if_pos hx, hfind]
  have htnd : tv.id2item_.Nodup := hperm.nodup_iff.mpr hnd
  have htable : (eraseSubtreeEntries n tv.id2item_).Perm (tv.root_.removeSub x).subtreeIds := by
    rw [(eraseSubtreeEntries_foldl_pair).1 n tv.id2item_]
    exact foldl_erase_perm n.subtreeIds tv.id2item_ _ htnd (hperm.trans hperm2)
  have hnd2 : (n.subtreeIds ++ (tv.root_.removeSub x).subtreeIds).Nodup :=
    hperm2.nodup_iff.mp hnd
  refine ⟨n, p, hfind, hid, heq, ?_, ⟨?_, ?_, ?_⟩, ?_, ?_⟩
  · rw [heq]; exact htable
  · rw [heq]; exact htable
  · rw [heq]; exact (List.nodup_append.mp hnd2).2.1
  · intro i hi
    rw [heq] at hi
    apply hb
    exact hperm2.mem_iff.mpr (List.mem_append.mpr (Or.inr hi))
  · rw [heq]
    dsimp only
    have h1 : (eraseSubtreeEntries n tv.id2item_).length
        = (tv.root_.removeSub x).subtreeIds.length := htable.length_eq
    have h2 : tv.id2item_.length
        = n.subtreeIds.length + (tv.root_.removeSub x).subtreeIds.length := by
      rw [(hperm.trans hperm2).length_eq, List.length_append]
    omega
  · rw [heq]
    intro hmem2
    have hdisj := List.disjoint_of_nodup_append hnd2
    exact hdisj (hid ▸ n.id_mem_subtreeIds) hmem2

theorem TreeView.create_inv (g : ItemId) : (TreeView.create g).1.Inv (g + 1) := by
  refine ⟨?_, ?_, ?_⟩
  · exact List.Perm.refl _
  · simp [TreeView.create]
  · intro i hi
    simp [TreeView.create] at hi
    rw [hi]; exact lt_add_one g

theorem TreeView.SetSelectedItemId_inv {tv : TreeView} {g : ItemId} (hInv : tv.Inv g)
    (i : ItemId) : (tv.SetSelectedItemId i).Inv g := hInv

theorem TreeView.step_inv {tv : TreeView} {g : ItemId} (hInv : tv.Inv g) (op : TreeOp)
    (hop : ∀ i, op = TreeOp.remove i → i ≠ tv.root_.id) :
    (tv.step g op).2.Inv (tv.step g op).1 ∧
    (tv.step g op).2.root_.id = tv.root_.id := by
  cases op with
  | add p t =>
    rw [TreeView.step]
    exact TreeView.AddItem_inv hInv p t
  | remove i =>
    rw [TreeView.step]
    by_cases hi : i ∈ tv.id2item_
    · obtain ⟨n, q, hfind, hid, heq, hperm3, hinv2, hlen, hout⟩ :=
        TreeView.RemoveItem_spec hInv hi (hop i rfl)
    
      refine ⟨hinv2, ?_⟩
      rw [heq]
      exact removeSub_id _ _
    · rw [TreeView.RemoveItem_noop hi]
      exact ⟨hInv, rfl⟩
  | setSelected i =>
    rw [TreeView.step]
    exact ⟨hInv, rfl⟩

theorem TreeView.runOps_inv (ops : List TreeOp) :
    ∀ (tv : TreeView) (g : ItemId), tv.Inv g →
      (∀ i, TreeOp.remove i ∈ ops → i ≠ tv.root_.id) →
      ((tv.runOps g ops).2.Inv (tv.runOps g ops).1 ∧
       (tv.runOps g ops).2.root_.id = tv.root_.id) := by
  induction ops with
  | nil =>
    intro tv g h hops
    exact ⟨h, rfl⟩
  | cons op ops ih =>
    intro tv g h hops
    rw [TreeView.runOps]
    obtain ⟨h1, h2⟩ := TreeView.step_inv h op
      (fun i hi => hops i (by rw [hi]; exact List.mem_cons_self _ _))
    obtain ⟨h3, h4⟩ := ih _ _ h1
      (fun i hi => h2 ▸ hops i (List.mem_cons_of_mem _ hi))
    exact ⟨h3, h4.trans h2⟩

theorem draw_pair (openP clickP : ItemId → Bool) :
    (∀ t : Item, ∀ st : DrawState,
      (clickedLeaf openP clickP t = false →
        (DrawItem openP clickP t st).selected_id = st.selected_id ∧
        (DrawItem openP clickP t st).new_selection = st.new_selection) ∧
      (clickedLeaf openP clickP t = true →
        ∃ tx i, (DrawItem openP clickP t st).new_selection = some (tx, i) ∧
          (DrawItem openP clickP t st).selected_id = i ∧
          ∃ n, n ∈ t.allNodes ∧ n.id = i ∧ n.text = tx ∧
            n.children = [] ∧ clickP i = true)) ∧
    (∀ l : List Item, ∀ st : DrawState,
      (clickedLeafList openP clickP l = false →
        (DrawItemList openP clickP l st).selected_id = st.selected_id ∧
        (DrawItemList openP clickP l st).new_selection = st.new_selection) ∧
      (clickedLeafList openP clickP l = true →
        ∃ tx i, (DrawItemList openP clickP l st).new_selection = some (tx, i) ∧
          (DrawItemList openP clickP l st).selected_id = i ∧
          ∃ n, n ∈ allNodesList l ∧ n.id = i ∧ n.text = tx ∧
            n.children = [] ∧ clickP i = true)) := by
  apply Item.mutual_ind
  · intro i tx cs ih st
    by_cases ho : openP i = true
    · by_cases hg : (clickP i && cs.isEmpty) = true
      · have hcs : cs = [] := by
          have h2 := (Bool.and_eq_true _ _).mp hg
          exact List.isEmpty_iff.mp h2.2
        have hcl : clickP i = true := ((Bool.and_eq_true _ _).mp hg).1
        subst hcs
        constructor
        · intro hfalse
          rw [clickedLeaf, hg] at hfalse
          simp at hfalse
        · intro htrue
          refine ⟨tx, i, ?_, ?_, Item.mk i tx [], ?_, rfl, rfl, rfl, hcl⟩
          · simp [DrawItem, DrawItemList, ho, hg, hcl]
          · simp [DrawItem, DrawItemList, ho, hg, hcl]
          · simp
      · have hres : DrawItem openP clickP (Item.mk i tx cs) st =
            DrawItemList openP clickP cs
              { st with highlights := st.highlights ++ [(i, i == st.selected_id)] } := by
          simp [DrawItem, ho, hg]
        have hclred : clickedLeaf openP clickP (Item.mk i tx cs)
            = clickedLeafList openP clickP cs := by
          rw [clickedLeaf]
          rw [Bool.not_eq_true] at hg
          rw [hg, ho]
          simp
        constructor
        · intro hfalse
          rw [hclred] at hfalse
          rw [hres]
          exact (ih _).1 hfalse
        · intro htrue
          rw [hclred] at htrue
          rw [hres]
          obtain ⟨tx2, i2, h1, h2, n, hn, h3, h4, h5, h6⟩ := (ih _).2 htrue
          exact ⟨tx2, i2, h1, h2, n, by simp [hn], h3, h4, h5, h6⟩
    · rw [Bool.not_eq_true] at ho
      have hclred : clickedLeaf openP clickP (Item.mk i tx cs)
          = (clickP i && cs.isEmpty) := by
        rw [clickedLeaf, ho]
        simp
      by_cases hg : (clickP i && cs.isEmpty) = true
      · have hcs : cs = [] := by
          have h2 := (Bool.and_eq_true _ _).mp hg
          exact List.isEmpty_iff.mp h2.2
        have hcl : clickP i = true := ((Bool.and_eq_true _ _).mp hg).1
        subst hcs
        constructor
        · intro hfalse
          rw [hclred, hg] at hfalse
          simp at hfalse
        · intro htrue
          refine ⟨tx, i, ?_, ?_, Item.mk i tx [], ?_, rfl, rfl, rfl, hcl⟩
          · simp [DrawItem, ho, hg, hcl]
          · simp [DrawItem, ho, hg, hcl]
          · simp
      · rw [Bool.not_eq_true] at hg
        constructor
        · intro hfalse
          simp [DrawItem, ho, hg]
        · intro htrue
          rw [hclred, hg] at htrue
          simp at htrue
  · intro st
    constructor
    · intro hfalse
      rw [DrawItemList]
      exact ⟨rfl, rfl⟩
    · intro htrue
      rw [clickedLeafList] at htrue
      simp at htrue
  · intro c cs ihc ihcs st
    have hred : DrawItemList openP clickP (c :: cs) st
        = DrawItemList openP clickP cs (DrawItem openP clickP c st) := by
      rw [DrawItemList]
    have hclred : clickedLeafList openP clickP (c :: cs)
        = (clickedLeaf openP clickP c || clickedLeafList openP clickP cs) := by
      rw [clickedLeafList]
    constructor
    · intro hfalse
      rw [hclred] at hfalse
      have h1 := (Bool.or_eq_false_iff.mp hfalse).1
      have h2 := (Bool.or_eq_false_iff.mp hfalse).2
      rw [hred]
      obtain ⟨ha, hb⟩ := (ihcs (DrawItem openP clickP c st)).1 h2
      obtain ⟨hc, hd⟩ := (ihc st).1 h1
      exact ⟨ha.trans hc, hb.trans hd⟩
    · intro htrue
      rw [hclred] at htrue
      rw [hred]
      by_cases h2 : clickedLeafList openP clickP cs = true
      · obtain ⟨tx2, i2, ha, hb, n, hn, h3, h4, h5, h6⟩ :=
          (ihcs (DrawItem openP clickP c st)).2 h2
        refine ⟨tx2, i2, ha, hb, n, ?_, h3, h4, h5, h6⟩
        simp [hn]
      · rw [Bool.not_eq_true] at h2
        rw [h2, Bool.or_false] at htrue
        obtain ⟨tx2, i2, ha, hb, n, hn, h3, h4, h5, h6⟩ := (ihc st).2 htrue
        obtain ⟨hc, hd⟩ := (ihcs (DrawItem openP clickP c st)).1 h2
        refine ⟨tx2, i2, hd.trans ha, hc.trans hb, n, ?_, h3, h4, h5, h6⟩
        simp [hn]

theorem World.step_shape (w : World) (op : WorldOp) :
    ((w.step op).2 = [] ∧ (w.step op).1.g_next_id = w.g_next_id) ∨
    ((w.step op).2 = [w.g_next_id] ∧ (w.step op).1.g_next_id = w.g_next_id + 1) := by
  cases op with
  | construct =>
    right
    exact ⟨rfl, rfl⟩
  | add idx p t =>
    cases h : w.stores[idx]? with
    | some tv =>
      right
      rw [World.step, h]
      exact ⟨rfl, rfl⟩
    | none =>
      left
      rw [World.step, h]
      exact ⟨rfl, rfl⟩
  | remove idx i =>
    cases h : w.stores[idx]? with
    | some tv =>
      left
      rw [World.step, h]
      exact ⟨rfl, rfl⟩
    | none =>
      left
      rw [World.step, h]
      exact ⟨rfl, rfl⟩

theorem World.runOps_issued (ops : List WorldOp) :
    ∀ w : World, List.Pairwise (fun a b : ItemId => a < b) (w.runOps ops).2 ∧
      (∀ x ∈ (w.runOps ops).2, w.g_next_id ≤ x) ∧
      w.g_next_id ≤ (w.runOps ops).1.g_next_id := by
  induction ops with
  | nil =>
    intro w
    rw [World.runOps]
    refine ⟨List.Pairwise.nil, ?_, le_refl _⟩
    intro x hx
    simp at hx
  | cons op ops ih =>
    intro w
    obtain ⟨hp, hb, hm⟩ := ih (w.step op).1
    have hgoal2 : (w.runOps (op :: ops)).2 = (w.step op).2 ++ ((w.step op).1.runOps ops).2 := by
      rw [World.runOps]
    have hgoal1 : (w.runOps (op :: ops)).1 = ((w.step op).1.runOps ops).1 := by
      rw [World.runOps]
    rcases World.step_shape w op with ⟨h1, h2⟩ | ⟨h1, h2⟩
    · rw [hgoal2, hgoal1, h1, List.nil_append]
      refine ⟨hp, ?_, ?_⟩
      · intro x hx
        have := hb x hx
        rw [h2] at this
        exact this
      · rw [← h2]; exact hm
    · rw [hgoal2, hgoal1, h1]
      have hcross : ∀ b ∈ ((w.step op).1.runOps ops).2, w.g_next_id < b := by
        intro b hbm
        have h3 := hb b hbm
        rw [h2] at h3
        exact lt_of_lt_of_le (lt_add_one w.g_next_id) h3
      refine ⟨List.pairwise_cons.mpr ⟨hcross, hp⟩, ?_, ?_⟩
      · intro x hx
        rcases List.mem_cons.mp hx with h3 | h3
        · rw [h3]
        · exact le_of_lt (hcross x h3)
      · refine le_trans ?_ hm
        rw [h2]
        exact le_of_lt (lt_add_one w.g_next_id)

/-! Concrete example stores used by witnesses and counterexamples.
All of them start the global counter at 0, as the process does. -/

/-- A fresh store: root identifier 0, counter advanced to 1. -/
def exFresh : TreeView := (TreeView.create 0).1

/-- `exFresh` after `AddItem(0, "A")`: returns id 1. -/
def exAdd1 : ItemId × ItemId × TreeView := exFresh.AddItem 1 0 "A"

/-- After `AddItem(1, "B")`: returns id 2 (child of item 1). -/
def exAdd2 : ItemId × ItemId × TreeView := exAdd1.2.2.AddItem 2 1 "B"

/-- After `AddItem(1, "C")`: returns id 3 (child of item 1). -/
def exAdd3 : ItemId × ItemId × TreeView := exAdd2.2.2.AddItem 3 1 "C"

/-- Store with root 0 and the subtree A(1) carrying leaves B(2), C(3). -/
def exNested : TreeView := exAdd3.2.2

/-- The tree node of item 1 inside `exNested`. -/
def exNode : Item := Item.mk 1 "A##1" [Item.mk 2 "B##2" [], Item.mk 3 "C##3" []]

/-- Store with root 0 and two leaves A(1), B(2) directly under the root,
with committed selection 2 and a registered listener. -/
def exFlat : TreeView :=
  (((exFresh.AddItem 1 0 "A").2.2.AddItem 2 0 "B").2.2.SetSelectedItemId 2).SetOnValueChanged

theorem specSiblingsIncludingSelfList_nil_of_not_mem (x : ItemId) :
    ∀ l : List Item, x ∉ subtreeIdsList l → specSiblingsIncludingSelfList l x = [] := by
  intro l
  induction l with
  | nil => intro h; rw [specSiblingsIncludingSelfList]
  | cons c cs ih =>
    intro h
    simp only [subtreeIdsList_cons, List.mem_append, not_or] at h
    rw [specSiblingsIncludingSelfList, if_neg (fun h2 => h.1 h2.1)]
    exact ih h.2

theorem specSiblingsIncludingSelf_self {t : Item} (hnd : t.subtreeIds.Nodup) :
    specSiblingsIncludingSelf t t.id = [] := by
  cases t with
  | mk i tx cs =>
    simp only [Item.subtreeIds_mk, Item.id_mk] at hnd ⊢
    have hnotin : i ∉ subtreeIdsList cs := (List.nodup_cons.mp hnd).1
    rw [specSiblingsIncludingSelf]
    rw [if_neg ?_]
    · exact specSiblingsIncludingSelfList_nil_of_not_mem i cs hnotin
    · intro h
      obtain ⟨d, hdm, hdi⟩ := List.mem_map.mp h
      exact hnotin (mem_subtreeIdsList_of_mem hdm i (hdi ▸ d.id_mem_subtreeIds))

theorem TreeView.GetItemChildren_root (tv : TreeView) :
    tv.GetItemChildren tv.root_.id = [] := by
  rw [TreeView.GetItemChildren]
  by_cases h : tv.root_.id ∈ tv.id2item_
  · rw [if_pos h, findWithParent_self]
  · rw [if_neg h]

/-- C10: for every store state, `GetItemChildren(GetRootItem())` returns the
empty sequence, because the result is sourced from the resolved item's parent
link and the root has no parent (TreeView.cpp lines 124-137: the root resolves
to itself, its `parent` is null, so the accumulating vector stays empty). -/
theorem C10_root_get_children_empty (tv : TreeView) :
    tv.GetItemChildren tv.GetRootItem = [] := by
  rw [TreeView.GetRootItem]
  exact tv.GetItemChildren_root

/-- C2: on a well-formed store, `GetItemChildren id` for a live `id` returns
the ordered identifiers of the children of that item's parent — the siblings
of the item including the item itself (`specSiblingsIncludingSelf`, the
spec-side reading), and the item's own identifier is in the result whenever
the item has a parent (every live non-root item); for a dead `id` the result
is empty. -/
theorem C2_get_children_siblings (g x : ItemId) (tv : TreeView) (hInv : tv.Inv g) :
    (x ∈ tv.id2item_ → tv.GetItemChildren x = specSiblingsIncludingSelf tv.root_ x) ∧
    (x ∈ tv.id2item_ → x ≠ tv.root_.id → x ∈ tv.GetItemChildren x) ∧
    (x ∉ tv.id2item_ → tv.GetItemChildren x = []) := by
  obtain ⟨hperm, hnd, hb⟩ := hInv
  refine ⟨?_, ?_, ?_⟩
  · intro hx
    by_cases hne : x = tv.root_.id
    · rw [hne, tv.GetItemChildren_root, specSiblingsIncludingSelf_self hnd]
    · obtain ⟨n, p, hfind, hid, hmem, hsib, hperm2⟩ :=
        (findRemove_pair x).1 tv.root_ none hnd (hperm.mem_iff.mp hx) hne
      rw [TreeView.GetItemChildren, if_pos hx, hfind]
      exact hsib
  · intro hx hne
    obtain ⟨n, p, hfind, hid, hmem, hsib, hperm2⟩ :=
      (findRemove_pair x).1 tv.root_ none hnd (hperm.mem_iff.mp hx) hne
    rw [TreeView.GetItemChildren, if_pos hx, hfind]
    exact List.mem_map.mpr ⟨n, hmem, hid⟩
  · intro hx
    rw [TreeView.GetItemChildren, if_neg hx]

/-- Witness for C2 at a concrete store: in `exNested` (root 0, item 1 with
children 2 and 3), querying id 2 returns the sibling list `[2, 3]`. -/
theorem C2_get_children_siblings_witness :
    exNested.Inv 4 ∧
    (((2 : ItemId) ∈ exNested.id2item_ →
        exNested.GetItemChildren 2 = specSiblingsIncludingSelf exNested.root_ 2) ∧
     ((2 : ItemId) ∈ exNested.id2item_ → (2 : ItemId) ≠ exNested.root_.id →
        (2 : ItemId) ∈ exNested.GetItemChildren 2) ∧
     ((2 : ItemId) ∉ exNested.id2item_ → exNested.GetItemChildren 2 = [])) :=
  ⟨by decide, C2_get_children_siblings 4 2 exNested (by decide)⟩

/-- C3: on a well-formed store, removing a live non-root item whose resolved
node is `n` shrinks the lookup table by exactly `N + 1` entries, where `N` is
the number of descendants of `n` (`(subtreeIdsList n.children).length`); the
removed identifier no longer occurs anywhere in the tree (so in particular not
in its former parent's children sequence); and removal of an unresolvable
identifier is a no-op. -/
theorem C3_remove_completeness (g x : ItemId) (tv : TreeView) (n : Item) (par : Option Item)
    (hInv : tv.Inv g) (hx : x ∈ tv.id2item_) (hne : x ≠ tv.root_.id)
    (hfind : findWithParent none tv.root_ x = some (n, par)) :
    ((tv.RemoveItem x).id2item_.length + ((subtreeIdsList n.children).length + 1)
      = tv.id2item_.length) ∧
    x ∉ (tv.RemoveItem x).root_.subtreeIds ∧
    (∀ (y : ItemId) (tw : TreeView), y ∉ tw.id2item_ → tw.RemoveItem y = tw) := by
  obtain ⟨n2, p2, hfind2, hid2, heq2, hperm3, hinv2, hlen, hout⟩ :=
    TreeView.RemoveItem_spec hInv hx hne
  have hn : n2 = n := by
    have h := hfind2.symm.trans hfind
    simp only [Option.some.injEq, Prod.mk.injEq] at h
    exact h.1
  subst hn
  refine ⟨?_, hout, fun y tw hy => TreeView.RemoveItem_noop hy⟩
  have hlen2 : n2.subtreeIds.length = (subtreeIdsList n2.children).length + 1 := by
    cases n2 with
    | mk i tx cs => simp [Item.subtreeIds_mk]
  rw [← hlen, hlen2]

/-- Witness for C3 at a concrete store: removing item 1 of `exNested`
(2 descendants) removes 3 lookup entries, leaving only the root's. -/
theorem C3_remove_completeness_witness :
    exNested.Inv 4 ∧ (1 : ItemId) ∈ exNested.id2item_ ∧ (1 : ItemId) ≠ exNested.root_.id ∧
    findWithParent none exNested.root_ 1 = some (exNode, some exNested.root_) ∧
    (((exNested.RemoveItem 1).id2item_.length + ((subtreeIdsList exNode.children).length + 1)
        = exNested.id2item_.length) ∧
     (1 : ItemId) ∉ (exNested.RemoveItem 1).root_.subtreeIds ∧
     (∀ (y : ItemId) (tw : TreeView), y ∉ tw.id2item_ → tw.RemoveItem y = tw)) :=
  ⟨by decide, by decide, by decide, rfl,
    C3_remove_completeness 4 1 exNested exNode (some exNested.root_)
      (by decide) (by decide) (by decide) rfl⟩

/-- Counterexample to C6 as stated: `SetSelectedItemId(-5)` (an unresolvable
identifier) is not returned verbatim by the next `GetSelectedItemId`; the
getter repairs every negative value to the root's identifier
(TreeView.cpp lines 139-145). -/
theorem C6_counterexample :
    (exFresh.SetSelectedItemId (-5)).GetSelectedItemId = 0 ∧
    ¬ (exFresh.SetSelectedItemId (-5)).GetSelectedItemId = -5 := by decide

/-- C6 amended: `SetSelectedItemId` stores the value unconditionally, and the
next `GetSelectedItemId` returns it verbatim whenever it is non-negative (in
particular for every unresolvable non-negative identifier such as 999, with no
validation or repair); a negative stored value — the "no selection" sentinel
range — reads back as the root's identifier instead, which is also why a
freshly constructed store (whose `selected_id_` is `-1`) reports the root as
the implicit default selection. -/
theorem C6_selection_verbatim (tv : TreeView) (i g : ItemId) :
    ((tv.SetSelectedItemId i).GetSelectedItemId = if i < 0 then tv.root_.id else i) ∧
    (TreeView.create g).1.GetSelectedItemId = (TreeView.create g).1.GetRootItem := by
  constructor
  · simp [TreeView.SetSelectedItemId, TreeView.GetSelectedItemId]
  · simp [TreeView.create, TreeView.GetSelectedItemId, TreeView.GetRootItem]

/-- C7: on a well-formed store, `AddItem` with an unresolvable `parent_id`
succeeds: the new item is appended as the last child of the root, its fresh
identifier is registered in the lookup table and returned, and that
identifier was never a key before the call. -/
theorem C7_invalid_parent_under_root (g parent_id : ItemId) (text : String) (tv : TreeView)
    (hInv : tv.Inv g) (hp : parent_id ∉ tv.id2item_) :
    (tv.AddItem g parent_id text).1 = g ∧
    (tv.AddItem g parent_id text).2.2.root_.children
      = tv.root_.children ++ [Item.mk g (text ++ "##" ++ toString g) []] ∧
    (tv.AddItem g parent_id text).1 ∈ (tv.AddItem g parent_id text).2.2.id2item_ ∧
    (tv.AddItem g parent_id text).1 ∉ tv.id2item_ := by
  obtain ⟨hperm, hnd, hb⟩ := hInv
  rw [TreeView.AddItem_eq]
  refine ⟨rfl, ?_, ?_, ?_⟩
  · dsimp only
    rw [if_neg hp]
    cases htv : tv.root_ with
    | mk i tx cs =>
      rw [Item.insertUnder]
      simp
  · dsimp only
    simp
  · dsimp only
    intro h
    exact absurd (hb g (hperm.mem_iff.mp h)) (lt_irrefl g)

/-- Witness for C7: `AddItem(999, "X")` on a fresh store, where 999 was never
issued, succeeds and attaches item 1 under the root. -/
theorem C7_invalid_parent_under_root_witness :
    exFresh.Inv 1 ∧ (999 : ItemId) ∉ exFresh.id2item_ ∧
    ((exFresh.AddItem 1 999 "X").1 = 1 ∧
     (exFresh.AddItem 1 999 "X").2.2.root_.children
       = exFresh.root_.children ++ [Item.mk 1 ("X" ++ "##" ++ toString (1 : ItemId)) []] ∧
     (exFresh.AddItem 1 999 "X").1 ∈ (exFresh.AddItem 1 999 "X").2.2.id2item_ ∧
     (exFresh.AddItem 1 999 "X").1 ∉ exFresh.id2item_) :=
  ⟨by decide, by decide, C7_invalid_parent_under_root 1 999 "X" exFresh (by decide) (by decide)⟩

/-- C4: for every starting process state and every sequence of operations —
store constructions (which issue root identifiers), `AddItem` calls (which
issue fresh identifiers), and `RemoveItem` calls, interleaved across any
number of independently constructed stores — the identifiers issued are
pairwise distinct: the shared counter `g_next_id` only moves forward, so
identifiers are never reused. -/
theorem C4_identifier_uniqueness (w : World) (ops : List WorldOp) :
    (w.runOps ops).2.Nodup :=
  ((World.runOps_issued ops w).1).imp (fun h => ne_of_lt h)

/-- Counterexample to C5 as stated: the store does not guard against removing
the root.  On a fresh store (root identifier 0, obtained from the public
`GetRootItem`), `RemoveItem(root)` erases the root's lookup entry: the table
becomes empty while the root item (id 0) is still reachable, so "the root's
lookup entry is always present" and "the lookup table's live entries equal the
set of reachable items" both fail after this public call.  (The only guard in
the code, `if (item->parent)` at TreeView.cpp line 112, merely skips the
unlink step; the erasure at line 99 still happens.) -/
theorem C5_counterexample :
    (exFresh.RemoveItem exFresh.GetRootItem).id2item_ = [] ∧
    (exFresh.RemoveItem exFresh.GetRootItem).root_.subtreeIds = [0] ∧
    exFresh.GetRootItem ∉ (exFresh.RemoveItem exFresh.GetRootItem).id2item_ := by decide

/-- C5 amended: after every sequence of public `AddItem`/`RemoveItem`/
`SetSelectedItemId` calls in which `RemoveItem` is never invoked on the root's
identifier, the structural-integrity invariant holds: the root is unchanged,
an identifier is a live lookup key exactly when it is reachable from the root
by following children links, each reachable item carries a distinct identifier
(so each is reached exactly once), and the root's lookup entry is present.
The qualification "`RemoveItem` never targets the root" is forced by
`C5_counterexample`: the code does not guard against that call. -/
theorem C5_structural_integrity (g : ItemId) (ops : List TreeOp)
    (hops : ∀ op ∈ ops, op ≠ TreeOp.remove g) :
    ((TreeView.create g).1.runOps (TreeView.create g).2 ops).2.root_.id = g ∧
    (∀ i : ItemId,
      i ∈ ((TreeView.create g).1.runOps (TreeView.create g).2 ops).2.id2item_ ↔
      i ∈ ((TreeView.create g).1.runOps (TreeView.create g).2 ops).2.root_.subtreeIds) ∧
    ((TreeView.create g).1.runOps (TreeView.create g).2 ops).2.root_.subtreeIds.Nodup ∧
    g ∈ ((TreeView.create g).1.runOps (TreeView.create g).2 ops).2.id2item_ := by
  have hroot : (TreeView.create g).1.root_.id = g := rfl
  obtain ⟨⟨hperm, hnd, hb⟩, hrid⟩ :=
    TreeView.runOps_inv ops (TreeView.create g).1 (TreeView.create g).2
      (TreeView.create_inv g)
      (by
        intro i hi hig
        have := hops (TreeOp.remove i) hi
        rw [hroot] at hig
        exact this (by rw [hig]))
  refine ⟨hrid.trans hroot, fun i => hperm.mem_iff, hnd, ?_⟩
  apply hperm.mem_iff.mpr
  have h2 := Item.id_mem_subtreeIds
    ((TreeView.create g).1.runOps (TreeView.create g).2 ops).2.root_
  rw [hrid.trans hroot] at h2
  exact h2

/-- Witness for C5 at a concrete run: counter starts at 0, root is 0, and the
operation sequence adds "A" under the root, adds "B" under the stale parent 7
(root fallback), removes item 1, and moves the selection — never removing the
root.  The invariant conclusions hold for the resulting store. -/
theorem C5_structural_integrity_witness :
    (∀ op ∈ [TreeOp.add 0 "A", TreeOp.add 7 "B", TreeOp.remove 1, TreeOp.setSelected 2],
      op ≠ TreeOp.remove 0) ∧
    (((TreeView.create 0).1.runOps (TreeView.create 0).2
        [TreeOp.add 0 "A", TreeOp.add 7 "B", TreeOp.remove 1,
          TreeOp.setSelected 2]).2.root_.id = 0 ∧
     (∀ i : ItemId,
       i ∈ ((TreeView.create 0).1.runOps (TreeView.create 0).2
         [TreeOp.add 0 "A", TreeOp.add 7 "B", TreeOp.remove 1,
           TreeOp.setSelected 2]).2.id2item_ ↔
       i ∈ ((TreeView.create 0).1.runOps (TreeView.create 0).2
         [TreeOp.add 0 "A", TreeOp.add 7 "B", TreeOp.remove 1,
           TreeOp.setSelected 2]).2.root_.subtreeIds) ∧
     ((TreeView.create 0).1.runOps (TreeView.create 0).2
       [TreeOp.add 0 "A", TreeOp.add 7 "B", TreeOp.remove 1,
         TreeOp.setSelected 2]).2.root_.subtreeIds.Nodup ∧
     (0 : ItemId) ∈ ((TreeView.create 0).1.runOps (TreeView.create 0).2
       [TreeOp.add 0 "A", TreeOp.add 7 "B", TreeOp.remove 1,
         TreeOp.setSelected 2]).2.id2item_) :=
  ⟨by decide, C5_structural_integrity 0
    [TreeOp.add 0 "A", TreeOp.add 7 "B", TreeOp.remove 1, TreeOp.setSelected 2]
    (by decide)⟩

/-- C8: during a traversal pass in which every clicked item has at least one
child (no leaf is activated), `Draw` leaves the committed selection untouched
— the value returned by `GetSelectedItemId` is unchanged — and also performs
no listener invocation and reports `NONE` (selection assignment at
TreeView.cpp lines 213-214/222-223 is guarded by `item.children.empty()`). -/
theorem C8_nonleaf_activation_keeps_selection (tv : TreeView) (openP clickP : ItemId → Bool)
    (h : ∀ n ∈ tv.root_.allNodes, clickP n.id = true → n.children.isEmpty = false) :
    (tv.Draw openP clickP).tv.GetSelectedItemId = tv.GetSelectedItemId ∧
    (tv.Draw openP clickP).calls = [] ∧
    (tv.Draw openP clickP).result = DrawResult.NONE := by
  have hcll : clickedLeafList openP clickP tv.root_.children = false := by
    by_contra h2
    rw [Bool.not_eq_false] at h2
    obtain ⟨tx, i, h3, h4, n, hn, h5, h6, h7, h8⟩ :=
      ((draw_pair openP clickP).2 tv.root_.children
        { selected_id := tv.selected_id_, new_selection := none, highlights := [] }).2 h2
    have h9 := h n (mem_allNodes_of_mem_children hn) (by rw [h5]; exact h8)
    rw [h7] at h9
    simp at h9
  obtain ⟨hsel, hpend⟩ := ((draw_pair openP clickP).2 tv.root_.children
    { selected_id := tv.selected_id_, new_selection := none, highlights := [] }).1 hcll
  refine ⟨?_, ?_, ?_⟩
  · simp only [TreeView.Draw, hpend]
    simp [TreeView.GetSelectedItemId, hsel]
  · simp only [TreeView.Draw, hpend]
  · simp only [TreeView.Draw, hpend]

/-- Witness for C8: in `exNested` the only clicked item is 1, which has the
two children 2 and 3; the pass changes nothing observable. -/
theorem C8_nonleaf_activation_keeps_selection_witness :
    (∀ n ∈ exNested.root_.allNodes, (fun i : ItemId => i == 1) n.id = true →
      n.children.isEmpty = false) ∧
    ((exNested.Draw (fun _ => true) (fun i : ItemId => i == 1)).tv.GetSelectedItemId
        = exNested.GetSelectedItemId ∧
     (exNested.Draw (fun _ => true) (fun i : ItemId => i == 1)).calls = [] ∧
     (exNested.Draw (fun _ => true) (fun i : ItemId => i == 1)).result = DrawResult.NONE) :=
  ⟨by decide, C8_nonleaf_activation_keeps_selection exNested
    (fun _ => true) (fun i : ItemId => i == 1) (by decide)⟩

/-- Counterexample to C1 as stated: `selected_id_` IS committed while the walk
is still in progress, not after the pass.  In `exFlat` (root 0, leaves 1 and 2
in that order, committed selection 2, listener registered), a pass that clicks
leaf 1 shows it twice: first, after `DrawItem` has processed only the first
top-level item — the walk still has item 2 to visit — the stored selection is
already 1; second, the highlight comparison logged when the walk later reaches
item 2 is `(2, false)`: it compares against the already-updated selection 1,
whereas the claim ("selectedId is not committed until the pass has fully
completed") would require the committed value still to be 2 there, making the
entry `(2, true)`. -/
theorem C1_counterexample :
    (DrawItem (fun _ => true) (fun i : ItemId => i == 1) (Item.mk 1 "A##1" [])
      { selected_id := 2, new_selection := none, highlights := [] }).selected_id = 1 ∧
    exFlat.selected_id_ = 2 ∧
    exFlat.root_.children = [Item.mk 1 "A##1" [], Item.mk 2 "B##2" []] ∧
    (exFlat.Draw (fun _ => true) (fun i : ItemId => i == 1)).highlights
      = [(1, false), (2, false)] :=
  ⟨rfl, rfl, rfl, rfl⟩

/-- C1 amended: activating a leaf during a pass immediately commits
`selected_id_` (visible to the remainder of the walk, see
`C1_counterexample`); only the listener is deferred until the pass completes.
With a listener registered: a pass that activates no leaf performs zero
listener invocations, returns `NONE`, and leaves the selection unchanged; a
pass that activates a leaf performs exactly one invocation, whose `(label,
id)` arguments are the stored text and identifier of an activated leaf item —
the same identifier the pass has committed as the final selection — and
returns `REDRAW`. -/
theorem C1_deferred_notification (tv : TreeView) (openP clickP : ItemId → Bool)
    (hlistener : tv.on_value_changed_ = true) :
    (clickedLeafList openP clickP tv.root_.children = false →
      (tv.Draw openP clickP).calls = [] ∧
      (tv.Draw openP clickP).result = DrawResult.NONE ∧
      (tv.Draw openP clickP).tv.selected_id_ = tv.selected_id_) ∧
    (clickedLeafList openP clickP tv.root_.children = true →
      ∃ tx i, (tv.Draw openP clickP).calls = [(tx, i)] ∧
        (tv.Draw openP clickP).result = DrawResult.REDRAW ∧
        (tv.Draw openP clickP).tv.selected_id_ = i ∧
        ∃ n, n ∈ tv.root_.allNodes ∧ n.id = i ∧ n.text = tx ∧
          n.children = [] ∧ clickP i = true) := by
  constructor
  · intro hfalse
    obtain ⟨hsel, hpend⟩ := ((draw_pair openP clickP).2 tv.root_.children
      { selected_id := tv.selected_id_, new_selection := none, highlights := [] }).1 hfalse
    refine ⟨?_, ?_, ?_⟩
    · simp only [TreeView.Draw, hpend]
    · simp only [TreeView.Draw, hpend]
    · simp only [TreeView.Draw, hpend]
      exact hsel
  · intro htrue
    obtain ⟨tx, i, hpend, hsel, n, hn, h3, h4, h5, h6⟩ :=
      ((draw_pair openP clickP).2 tv.root_.children
        { selected_id := tv.selected_id_, new_selection := none, highlights := [] }).2 htrue
    refine ⟨tx, i, ?_, ?_, ?_, n, mem_allNodes_of_mem_children hn, h3, h4, h5, h6⟩
    · simp only [TreeView.Draw, hpend, hlistener]
      simp
    · simp only [TreeView.Draw, hpend]
    · simp only [TreeView.Draw, hpend]
      exact hsel

/-- Witness for C1: in `exFlat` (listener registered) a pass clicking leaf 1
makes exactly one listener call, with the stored label and identifier of the
newly selected leaf. -/
theorem C1_deferred_notification_witness :
    exFlat.on_value_changed_ = true ∧
    ((clickedLeafList (fun _ => true) (fun i : ItemId => i == 1) exFlat.root_.children = false →
       (exFlat.Draw (fun _ => true) (fun i : ItemId => i == 1)).calls = [] ∧
       (exFlat.Draw (fun _ => true) (fun i : ItemId => i == 1)).result = DrawResult.NONE ∧
       (exFlat.Draw (fun _ => true) (fun i : ItemId => i == 1)).tv.selected_id_
         = exFlat.selected_id_) ∧
     (clickedLeafList (fun _ => true) (fun i : ItemId => i == 1) exFlat.root_.children = true →
       ∃ tx i, (exFlat.Draw (fun _ => true) (fun j : ItemId => j == 1)).calls = [(tx, i)] ∧
         (exFlat.Draw (fun _ => true) (fun j : ItemId => j == 1)).result = DrawResult.REDRAW ∧
         (exFlat.Draw (fun _ => true) (fun j : ItemId => j == 1)).tv.selected_id_ = i ∧
         ∃ n, n ∈ exFlat.root_.allNodes ∧ n.id = i ∧ n.text = tx ∧
           n.children = [] ∧ (fun j : ItemId => j == 1) i = true)) :=
  ⟨rfl, C1_deferred_notification exFlat (fun _ => true) (fun i : ItemId => i == 1) rfl⟩

/-- C9: on a well-formed store, the item created by `AddItem(parent_id, text)`
is stored with text `text ++ "##" ++ <decimal id>`, not the supplied text
verbatim (TreeView.cpp lines 75-79); and every listener invocation made by
`Draw` passes the stored text of a tree item together with its identifier —
so a selected item's label reaches the listener with the `##id` suffix. -/
theorem C9_text_id_suffix (g parent_id : ItemId) (text : String) (tv : TreeView)
    (hInv : tv.Inv g) :
    (∃ n, n ∈ (tv.AddItem g parent_id text).2.2.root_.allNodes ∧
       n.id = g ∧ n.text = text ++ "##" ++ toString g) ∧
    (∀ (tw : TreeView) (openP clickP : ItemId → Bool) (tx : String) (i : ItemId),
       (tw.Draw openP clickP).calls = [(tx, i)] →
       ∃ m, m ∈ tw.root_.allNodes ∧ m.id = i ∧ m.text = tx) := by
  obtain ⟨hperm, hnd, hb⟩ := hInv
  constructor
  · have hpid : (if parent_id ∈ tv.id2item_ then parent_id else tv.root_.id)
        ∈ tv.root_.subtreeIds := by
      by_cases h : parent_id ∈ tv.id2item_
      · rw [if_pos h]; exact hperm.mem_iff.mp h
      · rw [if_neg h]; exact tv.root_.id_mem_subtreeIds
    have hmem := (insertUnder_mem_pair
        (if parent_id ∈ tv.id2item_ then parent_id else tv.root_.id)
        (Item.mk g (text ++ "##" ++ toString g) [])).1 tv.root_ hpid
    rw [TreeView.AddItem_eq]
    exact ⟨Item.mk g (text ++ "##" ++ toString g) [], hmem, rfl, rfl⟩
  · intro tw openP clickP tx i hcalls
    cases hpend : (DrawItemList openP clickP tw.root_.children
        { selected_id := tw.selected_id_, new_selection := none, highlights := [] }).new_selection with
    | none =>
      rw [TreeView.Draw] at hcalls
      simp only [hpend] at hcalls
      cases hcalls
    | some v =>
      obtain ⟨tx2, i2⟩ := v
      by_cases hcl : clickedLeafList openP clickP tw.root_.children = true
      · obtain ⟨tx3, i3, h1, h2, n, hn, h3, h4, h5, h6⟩ :=
          ((draw_pair openP clickP).2 tw.root_.children
            { selected_id := tw.selected_id_, new_selection := none, highlights := [] }).2 hcl
        rw [hpend] at h1
        simp only [Option.some.injEq, Prod.mk.injEq] at h1
        rw [TreeView.Draw] at hcalls
        simp only [hpend] at hcalls
        by_cases hl : tw.on_value_changed_ = true
        · simp only [hl, if_true] at hcalls
          simp only [List.cons.injEq, Prod.mk.injEq] at hcalls
          refine ⟨n, mem_allNodes_of_mem_children hn, ?_, ?_⟩
          · rw [h3, ← h1.2, hcalls.1.2]
          · rw [h4, ← h1.1, hcalls.1.1]
        · rw [Bool.not_eq_true] at hl
          simp only [hl] at hcalls
          simp at hcalls
      · rw [Bool.not_eq_true] at hcl
        obtain ⟨hsel2, hpend2⟩ := ((draw_pair openP clickP).2 tw.root_.children
          { selected_id := tw.selected_id_, new_selection := none, highlights := [] }).1 hcl
        rw [hpend] at hpend2
        cases hpend2

/-- Witness for C9: adding "A" under the root of a fresh store stores the
label "A##1" on the created item 1. -/
theorem C9_text_id_suffix_witness :
    exFresh.Inv 1 ∧
    ((∃ n, n ∈ (exFresh.AddItem 1 0 "A").2.2.root_.allNodes ∧
        n.id = 1 ∧ n.text = "A" ++ "##" ++ toString (1 : ItemId)) ∧
     (∀ (tw : TreeView) (openP clickP : ItemId → Bool) (tx : String) (i : ItemId),
        (tw.Draw openP clickP).calls = [(tx, i)] →
        ∃ m, m ∈ tw.root_.allNodes ∧ m.id = i ∧ m.text = tx)) :=
  ⟨by decide, C9_text_id_suffix 1 0 "A" exFresh (by decide)⟩
